import Mathlib

/-!
Verification development for the Secure Vault password manager
(`src/project/src/lib/crypto.ts`, `src/project/src/context/AuthContext.tsx`,
`src/project/src/components/Dashboard.tsx`).

The repository's own logic (envelope layout, base64, slicing, the
salt-to-string conversion, hex encoding, session state machine, vault
loading, login verification) is embedded directly from the source.
Host-environment primitives (WebCrypto PBKDF2 / AES-GCM / SHA-256,
TextEncoder / TextDecoder, btoa / atob) are not repository code; they are
modelled from the spec, with AES-GCM and PBKDF2 kept abstract as
parameters so theorems state exactly which properties of the primitives
they rely on.
-/

namespace SecureVault

/-- Modelled from the spec: `TextEncoder.encode` for a single code point —
standard UTF-8 encoding of one Unicode scalar value as 1 to 4 bytes. -/
def utf8EncodeChar (n : Nat) : List Nat :=
  if n < 0x80 then [n]
  else if n < 0x800 then [0xC0 + n / 64, 0x80 + n % 64]
  else if n < 0x10000 then
    [0xE0 + n / 4096, 0x80 + (n / 64) % 64, 0x80 + n % 64]
  else
    [0xF0 + n / 262144, 0x80 + (n / 4096) % 64, 0x80 + (n / 64) % 64, 0x80 + n % 64]

/-- Modelled from the spec: `TextEncoder.encode` — the UTF-8 bytes of a string. -/
def utf8Bytes (s : String) : List Nat :=
  s.data.flatMap (fun c => utf8EncodeChar c.toNat)

/-- Modelled from the spec: `TextDecoder.decode` — UTF-8 decoding of a byte
stream, one byte per step. `acc` holds the code-point bits read so far and
`k` the number of continuation bytes still expected. Faithful on valid UTF-8
input; on invalid input it emits U+FFFD replacement characters, as the host
decoder does. -/
def utf8DecodeAux : Nat → Nat → List Nat → List Char
  | _, k, [] => if k = 0 then [] else ['�']
  | acc, k, b :: rest =>
    if k = 0 then
      if b < 0x80 then Char.ofNat b :: utf8DecodeAux 0 0 rest
      else if b < 0xC0 then '�' :: utf8DecodeAux 0 0 rest
      else if b < 0xE0 then utf8DecodeAux (b - 0xC0) 1 rest
      else if b < 0xF0 then utf8DecodeAux (b - 0xE0) 2 rest
      else utf8DecodeAux (b - 0xF0) 3 rest
    else
      if 0x80 ≤ b ∧ b < 0xC0 then
        if k = 1 then Char.ofNat (acc * 64 + (b - 0x80)) :: utf8DecodeAux 0 0 rest
        else utf8DecodeAux (acc * 64 + (b - 0x80)) (k - 1) rest
      else
        '�' :: utf8DecodeAux 0 0 (b :: rest)
  termination_by _ k bs => (bs.length, k)
  decreasing_by
    all_goals first
      | (apply Prod.Lex.right; omega)
      | (apply Prod.Lex.left; simp only [List.length_cons]; omega)

/-- The decoder run from its neutral state. -/
def utf8DecodeList (bs : List Nat) : List Char :=
  utf8DecodeAux 0 0 bs

/-- Modelled from the spec: `TextDecoder().decode` as a string transform. -/
def utf8Decode (bs : List Nat) : String :=
  ⟨utf8DecodeList bs⟩

theorem char_toNat_lt (c : Char) : c.toNat < 0x110000 := by
  have h1 : c.toNat = c.val.toNat := rfl
  have := c.val.toNat_lt
  rcases c.valid with h | ⟨_, h⟩ <;> omega

theorem utf8DecodeList_nil : utf8DecodeList [] = [] := by
  unfold utf8DecodeList
  rw [utf8DecodeAux.eq_def]
  simp

theorem utf8DecodeList_one (b : Nat) (h : b < 0x80) (bs : List Nat) :
    utf8DecodeList (b :: bs) = Char.ofNat b :: utf8DecodeList bs := by
  unfold utf8DecodeList
  rw [utf8DecodeAux.eq_def]
  simp [h]

theorem utf8DecodeList_two (b b1 : Nat) (hl : 0xC0 ≤ b) (hu : b < 0xE0)
    (h1 : 0x80 ≤ b1) (h2 : b1 < 0xC0) (bs : List Nat) :
    utf8DecodeList (b :: b1 :: bs) =
      Char.ofNat ((b - 0xC0) * 64 + (b1 - 0x80)) :: utf8DecodeList bs := by
  unfold utf8DecodeList
  rw [utf8DecodeAux.eq_def]
  have e1 : ¬ b < 0x80 := by omega
  have e2 : ¬ b < 0xC0 := by omega
  simp only [e1, e2, hu, if_true, if_false, if_pos rfl]
  rw [utf8DecodeAux.eq_def]
  simp [h1, h2]

theorem utf8DecodeList_three (b b1 b2 : Nat) (hl : 0xE0 ≤ b) (hu : b < 0xF0)
    (h1 : 0x80 ≤ b1) (h2 : b1 < 0xC0) (h3 : 0x80 ≤ b2) (h4 : b2 < 0xC0) (bs : List Nat) :
    utf8DecodeList (b :: b1 :: b2 :: bs) =
      Char.ofNat ((b - 0xE0) * 4096 + (b1 - 0x80) * 64 + (b2 - 0x80)) ::
        utf8DecodeList bs := by
  unfold utf8DecodeList
  rw [utf8DecodeAux.eq_def]
  have e1 : ¬ b < 0x80 := by omega
  have e2 : ¬ b < 0xC0 := by omega
  have e3 : ¬ b < 0xE0 := by omega
  simp only [e1, e2, e3, hu, if_true, if_false, if_pos rfl]
  rw [utf8DecodeAux.eq_def]
  simp only [if_neg (by omega : ¬ (2:Nat) = 0),
    if_pos (show 0x80 ≤ b1 ∧ b1 < 0xC0 from ⟨h1, h2⟩), if_neg (by omega : ¬ (2:Nat) = 1)]
  rw [utf8DecodeAux.eq_def]
  simp only [if_neg (by omega : ¬ (2-1:Nat) = 0),
    if_pos (show 0x80 ≤ b2 ∧ b2 < 0xC0 from ⟨h3, h4⟩), if_pos (by omega : (2-1:Nat) = 1)]
  rw [show ((b - 0xE0) * 64 + (b1 - 0x80)) * 64 + (b2 - 0x80) =
    (b - 0xE0) * 4096 + (b1 - 0x80) * 64 + (b2 - 0x80) by ring]
  simp

theorem utf8DecodeList_four (b b1 b2 b3 : Nat) (hl : 0xF0 ≤ b)
    (h1 : 0x80 ≤ b1) (h2 : b1 < 0xC0) (h3 : 0x80 ≤ b2) (h4 : b2 < 0xC0)
    (h5 : 0x80 ≤ b3) (h6 : b3 < 0xC0) (bs : List Nat) :
    utf8DecodeList (b :: b1 :: b2 :: b3 :: bs) =
      Char.ofNat ((b - 0xF0) * 262144 + (b1 - 0x80) * 4096 + (b2 - 0x80) * 64 + (b3 - 0x80)) ::
        utf8DecodeList bs := by
  unfold utf8DecodeList
  rw [utf8DecodeAux.eq_def]
  have e1 : ¬ b < 0x80 := by omega
  have e2 : ¬ b < 0xC0 := by omega
  have e3 : ¬ b < 0xE0 := by omega
  have e4 : ¬ b < 0xF0 := by omega
  simp only [e1, e2, e3, e4, if_true, if_false]
  rw [utf8DecodeAux.eq_def]
  simp only [if_neg (by omega : ¬ (3:Nat) = 0),
    if_pos (show 0x80 ≤ b1 ∧ b1 < 0xC0 from ⟨h1, h2⟩), if_neg (by omega : ¬ (3:Nat) = 1)]
  rw [utf8DecodeAux.eq_def]
  simp only [if_neg (by omega : ¬ (3-1:Nat) = 0),
    if_pos (show 0x80 ≤ b2 ∧ b2 < 0xC0 from ⟨h3, h4⟩), if_neg (by omega : ¬ (3-1:Nat) = 1)]
  rw [utf8DecodeAux.eq_def]
  simp only [if_neg (by omega : ¬ (3-1-1:Nat) = 0),
    if_pos (show 0x80 ≤ b3 ∧ b3 < 0xC0 from ⟨h5, h6⟩), if_pos (by omega : (3-1-1:Nat) = 1)]
  rw [show (((b - 0xF0) * 64 + (b1 - 0x80)) * 64 + (b2 - 0x80)) * 64 + (b3 - 0x80) =
    (b - 0xF0) * 262144 + (b1 - 0x80) * 4096 + (b2 - 0x80) * 64 + (b3 - 0x80) by ring]
  simp

theorem utf8DecodeList_encodeChar (c : Char) (bs : List Nat) :
    utf8DecodeList (utf8EncodeChar c.toNat ++ bs) = c :: utf8DecodeList bs := by
  have hval : c.toNat < 0x110000 := char_toNat_lt c
  set n := c.toNat with hn
  by_cases h1 : n < 0x80
  · rw [utf8EncodeChar, if_pos h1]
    simp only [List.cons_append, List.nil_append]
    rw [utf8DecodeList_one n h1, hn, Char.ofNat_toNat]
  · by_cases h2 : n < 0x800
    · rw [utf8EncodeChar, if_neg h1, if_pos h2]
      simp only [List.cons_append, List.nil_append]
      have hm : n % 64 < 64 := Nat.mod_lt n (by omega)
      rw [utf8DecodeList_two (0xC0 + n / 64) (0x80 + n % 64) (by omega) (by omega)
        (by omega) (by omega)]
      have harith : (0xC0 + n / 64 - 0xC0) * 64 + (0x80 + n % 64 - 0x80) = n := by omega
      rw [harith, hn, Char.ofNat_toNat]
    · by_cases h3 : n < 0x10000
      · rw [utf8EncodeChar, if_neg h1, if_neg h2, if_pos h3]
        simp only [List.cons_append, List.nil_append]
        have hm1 : (n / 64) % 64 < 64 := Nat.mod_lt (n / 64) (by omega)
        have hm2 : n % 64 < 64 := Nat.mod_lt n (by omega)
        rw [utf8DecodeList_three (0xE0 + n / 4096) (0x80 + (n / 64) % 64) (0x80 + n % 64)
          (by omega) (by omega) (by omega) (by omega) (by omega) (by omega)]
        have harith : (0xE0 + n / 4096 - 0xE0) * 4096 + (0x80 + (n / 64) % 64 - 0x80) * 64 +
            (0x80 + n % 64 - 0x80) = n := by omega
        rw [harith, hn, Char.ofNat_toNat]
      · rw [utf8EncodeChar, if_neg h1, if_neg h2, if_neg h3]
        simp only [List.cons_append, List.nil_append]
        have hm1 : (n / 4096) % 64 < 64 := Nat.mod_lt (n / 4096) (by omega)
        have hm2 : (n / 64) % 64 < 64 := Nat.mod_lt (n / 64) (by omega)
        have hm3 : n % 64 < 64 := Nat.mod_lt n (by omega)
        rw [utf8DecodeList_four (0xF0 + n / 262144) (0x80 + (n / 4096) % 64)
          (0x80 + (n / 64) % 64) (0x80 + n % 64) (by omega) (by omega) (by omega)
          (by omega) (by omega) (by omega) (by omega)]
        have harith : (0xF0 + n / 262144 - 0xF0) * 262144 + (0x80 + (n / 4096) % 64 - 0x80) *
            4096 + (0x80 + (n / 64) % 64 - 0x80) * 64 + (0x80 + n % 64 - 0x80) = n := by
          omega
        rw [harith, hn, Char.ofNat_toNat]

/-- UTF-8 decoding inverts UTF-8 encoding on every string. -/
theorem utf8Decode_utf8Bytes (s : String) : utf8Decode (utf8Bytes s) = s := by
  rcases s with ⟨cs⟩
  suffices h : utf8DecodeList (cs.flatMap (fun c => utf8EncodeChar c.toNat)) = cs by
    simpa [utf8Decode, utf8Bytes] using congrArg String.mk h
  induction cs with
  | nil => simpa using utf8DecodeList_nil
  | cons c cs ih =>
    rw [List.flatMap_cons, utf8DecodeList_encodeChar, ih]

/-- UTF-8 encoding is injective on strings. -/
theorem utf8Bytes_injective : Function.Injective utf8Bytes := by
  intro s t h
  have := congrArg utf8Decode h
  rwa [utf8Decode_utf8Bytes, utf8Decode_utf8Bytes] at this

theorem utf8EncodeChar_lt_256 (n : Nat) (hn : n < 0x110000) :
    ∀ b ∈ utf8EncodeChar n, b < 256 := by
  intro b hb
  unfold utf8EncodeChar at hb
  split at hb
  · simp at hb; omega
  · split at hb
    · have := Nat.mod_lt n (y := 64) (by omega)
      simp at hb
      rcases hb with h | h <;> omega
    · split at hb
      · have := Nat.mod_lt (n / 64) (y := 64) (by omega)
        have := Nat.mod_lt n (y := 64) (by omega)
        simp at hb
        rcases hb with h | h | h <;> omega
      · have := Nat.mod_lt (n / 4096) (y := 64) (by omega)
        have := Nat.mod_lt (n / 64) (y := 64) (by omega)
        have := Nat.mod_lt n (y := 64) (by omega)
        simp at hb
        rcases hb with h | h | h | h <;> omega

/-- Every byte produced by UTF-8 encoding is below 256. -/
theorem utf8Bytes_lt_256 (s : String) : ∀ b ∈ utf8Bytes s, b < 256 := by
  intro b hb
  simp only [utf8Bytes, List.mem_flatMap] at hb
  rcases hb with ⟨c, _, hb⟩
  exact utf8EncodeChar_lt_256 c.toNat (char_toNat_lt c) b hb

/-! ### Base64 (`btoa` / `atob`) -/

/-- The standard base64 alphabet. -/
def base64Alphabet : List Char :=
  ("ABCDEFGHIJKLMNOPQRSTUVWXYZabcdefghijklmnopqrstuvwxyz0123456789+/").data

/-- Sextet value to base64 character. -/
def b64Char (n : Nat) : Char :=
  base64Alphabet.getD n ('A')

/-- Base64 character back to its sextet value, `none` for characters outside
the alphabet. -/
def b64Index (c : Char) : Option Nat :=
  base64Alphabet.findIdx? (· == c)

/-- Modelled from the spec: `btoa` on a binary string, here taken directly on
the byte values of that string (the source always calls it as
`btoa(String.fromCharCode(...bytes))`). Standard base64 with `=` padding. -/
def btoaChunks : List Nat → List Char
  | [] => []
  | [b0] => [b64Char (b0 / 4), b64Char (b0 % 4 * 16), '=', '=']
  | [b0, b1] =>
    [b64Char (b0 / 4), b64Char (b0 % 4 * 16 + b1 / 16), b64Char (b1 % 16 * 4), '=']
  | b0 :: b1 :: b2 :: rest =>
    b64Char (b0 / 4) :: b64Char (b0 % 4 * 16 + b1 / 16) :: b64Char (b1 % 16 * 4 + b2 / 64) ::
      b64Char (b2 % 64) :: btoaChunks rest

/-- `btoa` as a string producer. -/
def btoa (bs : List Nat) : String :=
  ⟨btoaChunks bs⟩

/-- Modelled from the spec: `atob` — forgiving base64 decoding; `none` models
the `InvalidCharacterError` the host throws on malformed base64. -/
def atobChunks : List Char → Option (List Nat)
  | [] => some []
  | [_] => none
  | [c0, c1] => do
    let n0 ← b64Index c0
    let n1 ← b64Index c1
    pure [n0 * 4 + n1 / 16]
  | [c0, c1, c2] => do
    let n0 ← b64Index c0
    let n1 ← b64Index c1
    let n2 ← b64Index c2
    pure [n0 * 4 + n1 / 16, n1 % 16 * 16 + n2 / 4]
  | c0 :: c1 :: c2 :: c3 :: rest =>
    if c2 = '=' ∧ c3 = '=' ∧ rest = [] then do
      let n0 ← b64Index c0
      let n1 ← b64Index c1
      pure [n0 * 4 + n1 / 16]
    else if c3 = '=' ∧ rest = [] then do
      let n0 ← b64Index c0
      let n1 ← b64Index c1
      let n2 ← b64Index c2
      pure [n0 * 4 + n1 / 16, n1 % 16 * 16 + n2 / 4]
    else do
      let n0 ← b64Index c0
      let n1 ← b64Index c1
      let n2 ← b64Index c2
      let n3 ← b64Index c3
      let tl ← atobChunks rest
      pure ((n0 * 4 + n1 / 16) :: (n1 % 16 * 16 + n2 / 4) :: (n2 % 4 * 64 + n3) :: tl)

/-- `atob` as a string consumer. -/
def atob (s : String) : Option (List Nat) :=
  atobChunks s.data

theorem b64Index_b64Char_fin : ∀ n : Fin 64, b64Index (b64Char n.val) = some n.val := by
  decide

theorem b64Char_ne_pad_fin : ∀ n : Fin 64, b64Char n.val ≠ '=' := by
  decide

theorem b64Index_b64Char (n : Nat) (h : n < 64) : b64Index (b64Char n) = some n :=
  b64Index_b64Char_fin ⟨n, h⟩

theorem b64Char_ne_pad (n : Nat) (h : n < 64) : b64Char n ≠ '=' :=
  b64Char_ne_pad_fin ⟨n, h⟩

/-- Base64 decoding inverts base64 encoding on byte lists. -/
theorem atobChunks_btoaChunks (bs : List Nat) (h : ∀ b ∈ bs, b < 256) :
    atobChunks (btoaChunks bs) = some bs := by
  induction bs using btoaChunks.induct with
  | case1 => rfl
  | case2 b0 =>
    have hb0 : b0 < 256 := h b0 (by simp)
    rw [btoaChunks, atobChunks]
    rw [if_pos ⟨rfl, rfl, rfl⟩]
    rw [b64Index_b64Char (b0 / 4) (by omega), b64Index_b64Char (b0 % 4 * 16) (by omega)]
    simp only [Option.bind_eq_bind, Option.some_bind, pure]
    have : b0 / 4 * 4 + b0 % 4 * 16 / 16 = b0 := by omega
    rw [this]
  | case3 b0 b1 =>
    have hb0 : b0 < 256 := h b0 (by simp)
    have hb1 : b1 < 256 := h b1 (by simp)
    rw [btoaChunks, atobChunks]
    rw [if_neg (by
      rintro ⟨hc, -, -⟩
      exact b64Char_ne_pad (b1 % 16 * 4) (by omega) hc)]
    rw [if_pos ⟨rfl, rfl⟩]
    rw [b64Index_b64Char (b0 / 4) (by omega), b64Index_b64Char (b0 % 4 * 16 + b1 / 16) (by omega),
      b64Index_b64Char (b1 % 16 * 4) (by omega)]
    simp only [Option.bind_eq_bind, Option.some_bind, pure]
    have e1 : b0 / 4 * 4 + (b0 % 4 * 16 + b1 / 16) / 16 = b0 := by omega
    have e2 : (b0 % 4 * 16 + b1 / 16) % 16 * 16 + b1 % 16 * 4 / 4 = b1 := by omega
    rw [e1, e2]
  | case4 b0 b1 b2 rest ih =>
    have hb0 : b0 < 256 := h b0 (by simp)
    have hb1 : b1 < 256 := h b1 (by simp)
    have hb2 : b2 < 256 := h b2 (by simp)
    have hrest : ∀ b ∈ rest, b < 256 := fun b hb => h b (by simp [hb])
    rw [btoaChunks, atobChunks]
    rw [if_neg (by
      rintro ⟨hc, -, -⟩
      exact b64Char_ne_pad (b1 % 16 * 4 + b2 / 64) (by omega) hc)]
    rw [if_neg (by
      rintro ⟨hc, -⟩
      exact b64Char_ne_pad (b2 % 64) (by omega) hc)]
    rw [b64Index_b64Char (b0 / 4) (by omega), b64Index_b64Char (b0 % 4 * 16 + b1 / 16) (by omega),
      b64Index_b64Char (b1 % 16 * 4 + b2 / 64) (by omega), b64Index_b64Char (b2 % 64) (by omega),
      ih hrest]
    simp only [Option.bind_eq_bind, Option.some_bind, pure]
    have e1 : b0 / 4 * 4 + (b0 % 4 * 16 + b1 / 16) / 16 = b0 := by omega
    have e2 : (b0 % 4 * 16 + b1 / 16) % 16 * 16 + (b1 % 16 * 4 + b2 / 64) / 4 = b1 := by omega
    have e3 : (b1 % 16 * 4 + b2 / 64) % 4 * 64 + b2 % 64 = b2 := by omega
    rw [e1, e2, e3]

/-- `atob` inverts `btoa` on byte lists. -/
theorem atob_btoa (bs : List Nat) (h : ∀ b ∈ bs, b < 256) : atob (btoa bs) = some bs :=
  atobChunks_btoaChunks bs h

/-! ### Hex encoding (`b.toString(16).padStart(2, '0')`) -/

/-- One byte as in `b.toString(16).padStart(2, '0')`: base-16 digits, padded
on the left with `'0'` up to length 2. -/
def hexByte (b : Nat) : String :=
  ⟨List.replicate (2 - (Nat.toDigits 16 b).length) '0' ++ Nat.toDigits 16 b⟩

/-- `hashArray.map(hexByte).join('')`. -/
def hexOfBytes (bs : List Nat) : String :=
  String.join (bs.map hexByte)

/-- The lowercase hex digits. -/
def hexDigits : List Char :=
  ("0123456789abcdef").data

set_option maxRecDepth 4096 in
theorem hexByte_spec_fin :
    ∀ b : Fin 256, (hexByte b.val).length = 2 ∧ ∀ c ∈ (hexByte b.val).data, c ∈ hexDigits := by
  decide

theorem hexByte_length (b : Nat) (h : b < 256) : (hexByte b).length = 2 :=
  (hexByte_spec_fin ⟨b, h⟩).1

theorem hexByte_digits (b : Nat) (h : b < 256) : ∀ c ∈ (hexByte b).data, c ∈ hexDigits :=
  (hexByte_spec_fin ⟨b, h⟩).2

/-! ### Host cryptographic primitives (WebCrypto), kept abstract

`crypto.subtle` is a host primitive, not repository code. The embedding is
parametric in it; each theorem states exactly which property of the
primitive it relies on (modelled from the spec: PBKDF2-SHA-256 key
derivation, AES-GCM authenticated encryption appending a 16-byte tag,
SHA-256 digest). -/

structure HostCrypto where
  /-- Modelled from the spec: PBKDF2 with SHA-256 — password bytes, salt
  bytes, iteration count to a 256-bit key (represented as its bytes). -/
  pbkdf2Sha256 : List Nat → List Nat → Nat → List Nat
  /-- Modelled from the spec: AES-GCM encryption — key, nonce, plaintext
  bytes to ciphertext-plus-tag bytes. -/
  aesGcmEnc : List Nat → List Nat → List Nat → List Nat
  /-- Modelled from the spec: AES-GCM authenticated decryption — `none`
  models the `OperationError` thrown when the tag check fails. -/
  aesGcmDec : List Nat → List Nat → List Nat → Option (List Nat)
  /-- Modelled from the spec: the SHA-256 digest, 32 bytes. -/
  sha256 : List Nat → List Nat

/-- How `decryptData` can fail.  `invalidBase64` models the
`InvalidCharacterError` thrown by `atob` before any decryption is attempted;
`integrityError` models the `OperationError` thrown by
`crypto.subtle.decrypt` when authenticated decryption (the tag check)
fails — the spec's `IntegrityError`. -/
inductive CryptoError where
  | invalidBase64 : CryptoError
  | integrityError : CryptoError
  deriving DecidableEq, Repr

/-- `deriveKey(masterKey, salt)` from `src/project/src/lib/crypto.ts`:
UTF-8-encode the master key and the salt string, then run PBKDF2 with
100000 iterations and SHA-256 to obtain the AES-GCM key. -/
def deriveKey (H : HostCrypto) (masterKey : String) (salt : String) : List Nat :=
  H.pbkdf2Sha256 (utf8Bytes masterKey) (utf8Bytes salt) 100000

/-- `Array.from(salt).map(b => String.fromCharCode(b)).join('')` — the
string whose code points are the salt bytes. -/
def saltToString (salt : List Nat) : String :=
  ⟨salt.map Char.ofNat⟩

/-- `encryptData(data, masterKey)` from `src/project/src/lib/crypto.ts`.
The 16 random salt bytes and 12 random nonce bytes produced by
`crypto.getRandomValues` are passed in explicitly, since randomness is a
host effect. -/
def encryptData (H : HostCrypto) (data masterKey : String) (salt iv : List Nat) : String :=
  let key := deriveKey H masterKey (saltToString salt)
  let encryptedData := H.aesGcmEnc key iv (utf8Bytes data)
  let combined := salt ++ iv ++ encryptedData
  btoa combined

/-- `decryptData(encryptedData, masterKey)` from
`src/project/src/lib/crypto.ts`: base64-decode, slice bytes 0-16 as the
salt, 16-28 as the nonce, the rest as ciphertext-plus-tag, re-derive the
key and run authenticated decryption. -/
def decryptData (H : HostCrypto) (encryptedData masterKey : String) :
    Except CryptoError String :=
  match atob encryptedData with
  | none => .error .invalidBase64
  | some combined =>
    let salt := combined.take 16
    let iv := (combined.drop 16).take 12
    let data := combined.drop 28
    let key := deriveKey H masterKey (saltToString salt)
    match H.aesGcmDec key iv data with
    | none => .error .integrityError
    | some decryptedData => .ok (utf8Decode decryptedData)

/-- `hashMasterKey(masterKey)` from `src/project/src/lib/crypto.ts`:
SHA-256 over the UTF-8 bytes, each digest byte rendered as
`b.toString(16).padStart(2, '0')`, joined. -/
def hashMasterKey (H : HostCrypto) (masterKey : String) : String :=
  hexOfBytes (H.sha256 (utf8Bytes masterKey))

/-! ### Envelope parsing helpers -/

theorem envelope_take16 (salt iv rest : List Nat) (hs : salt.length = 16) :
    (salt ++ iv ++ rest).take 16 = salt := by
  rw [List.append_assoc]
  exact List.take_left' hs

theorem envelope_slice16_28 (salt iv rest : List Nat) (hs : salt.length = 16)
    (hi : iv.length = 12) :
    ((salt ++ iv ++ rest).drop 16).take 12 = iv := by
  rw [List.append_assoc, List.drop_left' hs, List.take_left' hi]

theorem envelope_drop28 (salt iv rest : List Nat) (hs : salt.length = 16)
    (hi : iv.length = 12) :
    (salt ++ iv ++ rest).drop 28 = rest :=
  List.drop_left' (by simp [hs, hi])

/-- Parsing lemma: on any well-formed envelope `btoa (salt ++ iv ++ rest)`
with a 16-byte salt and a 12-byte nonce, `decryptData` recovers exactly
those three components and hands them to authenticated decryption. -/
theorem decryptData_parse (H : HostCrypto) (k : String) (salt iv rest : List Nat)
    (hs : salt.length = 16) (hi : iv.length = 12)
    (hsb : ∀ b ∈ salt, b < 256) (hib : ∀ b ∈ iv, b < 256) (hrb : ∀ b ∈ rest, b < 256) :
    decryptData H (btoa (salt ++ iv ++ rest)) k =
      match H.aesGcmDec (deriveKey H k (saltToString salt)) iv rest with
      | none => .error .integrityError
      | some pt => .ok (utf8Decode pt) := by
  have hbytes : ∀ b ∈ salt ++ iv ++ rest, b < 256 := by
    intro b hb
    rcases List.mem_append.mp hb with h | h
    · rcases List.mem_append.mp h with h | h
      · exact hsb b h
      · exact hib b h
    · exact hrb b h
  rw [decryptData, atob_btoa _ hbytes]
  dsimp only
  rw [envelope_take16 _ _ _ hs, envelope_slice16_28 _ _ _ hs hi, envelope_drop28 _ _ _ hs hi]

/-- Central computation lemma: decrypting an envelope produced by
`encryptData` re-derives the key from the same 16 salt bytes and hands the
original nonce and ciphertext-plus-tag to authenticated decryption. -/
theorem decryptData_encryptData (H : HostCrypto) (s k k2 : String) (salt iv : List Nat)
    (hs : salt.length = 16) (hi : iv.length = 12)
    (hsb : ∀ b ∈ salt, b < 256) (hib : ∀ b ∈ iv, b < 256)
    (heb : ∀ b ∈ H.aesGcmEnc (deriveKey H k (saltToString salt)) iv (utf8Bytes s), b < 256) :
    decryptData H (encryptData H s k salt iv) k2 =
      match H.aesGcmDec (deriveKey H k2 (saltToString salt)) iv
          (H.aesGcmEnc (deriveKey H k (saltToString salt)) iv (utf8Bytes s)) with
      | none => .error .integrityError
      | some pt => .ok (utf8Decode pt) := by
  have hbytes : ∀ b ∈ salt ++ iv ++ H.aesGcmEnc (deriveKey H k (saltToString salt)) iv
      (utf8Bytes s), b < 256 := by
    intro b hb
    rcases List.mem_append.mp hb with h | h
    · rcases List.mem_append.mp h with h | h
      · exact hsb b h
      · exact hib b h
    · exact heb b h
  rw [decryptData, encryptData]
  rw [atob_btoa _ hbytes]
  dsimp only
  rw [envelope_take16 _ _ _ hs, envelope_slice16_28 _ _ _ hs hi, envelope_drop28 _ _ _ hs hi]

/-! ### Concrete host-crypto instances

These are not the real WebCrypto primitives; they are small computable
instances used to exhibit that the hypotheses of the parametric theorems
are satisfiable and to evaluate the embedding on concrete inputs. -/

/-- A host instance whose AEAD appends a constant 16-byte tag; it satisfies
perfect decryption correctness and the AES-GCM length equation. -/
def toyHost : HostCrypto where
  pbkdf2Sha256 pw salt _ := pw.length :: (pw ++ salt)
  aesGcmEnc _ _ pt := pt ++ List.replicate 16 0
  aesGcmDec _ _ ct :=
    if 16 ≤ ct.length ∧ ct.drop (ct.length - 16) = List.replicate 16 0 then
      some (ct.take (ct.length - 16))
    else none
  sha256 _ := List.replicate 32 0

theorem toyHost_correct (key iv pt : List Nat) :
    toyHost.aesGcmDec key iv (toyHost.aesGcmEnc key iv pt) = some pt := by
  dsimp only [toyHost]
  have h16 : (pt ++ List.replicate 16 (0:Nat)).length - 16 = pt.length := by simp
  rw [h16, List.drop_left' rfl, List.take_left' rfl]
  rw [if_pos ⟨by simp, rfl⟩]

/-- A host instance with an ideal authenticity property: the key is
recoverable from the ciphertext, so decryption under any other key fails. -/
def toyAuthHost : HostCrypto where
  pbkdf2Sha256 pw salt _ := pw.length :: (pw ++ salt)
  aesGcmEnc key _ pt := key.length :: (key ++ pt)
  aesGcmDec key _ ct :=
    if ct.take (key.length + 1) = key.length :: key then some (ct.drop (key.length + 1))
    else none
  sha256 _ := List.replicate 32 0

theorem toyAuthHost_pbkdf2_inj (pw pw' salt : List Nat) (it : Nat) (h : pw ≠ pw') :
    toyAuthHost.pbkdf2Sha256 pw salt it ≠ toyAuthHost.pbkdf2Sha256 pw' salt it := by
  intro heq
  rcases List.cons.inj heq with ⟨-, happ⟩
  exact h (List.append_cancel_right happ)

theorem toyAuthHost_auth (key key' iv pt : List Nat) (h : key' ≠ key) :
    toyAuthHost.aesGcmDec key' iv (toyAuthHost.aesGcmEnc key iv pt) = none := by
  dsimp only [toyAuthHost]
  rw [if_neg]
  intro heq
  rw [List.take_succ_cons] at heq
  rcases List.cons.inj heq with ⟨hlen, htake⟩
  rw [← hlen, List.take_left' rfl] at htake
  exact h htake.symm

/-! ### The salt-to-string transformation -/

theorem char_toNat_ofNat (n : Nat) (h : n < 0xD800) : (Char.ofNat n).toNat = n := by
  have hv : n.isValidChar := Or.inl h
  simp only [Char.ofNat, dif_pos hv, Char.toNat, Char.ofNatAux]
  rfl

/-- The UTF-8 bytes of the code-point string of a byte list: each byte
becomes the UTF-8 encoding of the character with that code point. -/
theorem utf8Bytes_saltToString (salt : List Nat) (h : ∀ b ∈ salt, b < 256) :
    utf8Bytes (saltToString salt) = salt.flatMap utf8EncodeChar := by
  rw [saltToString, utf8Bytes]
  show (salt.map Char.ofNat).flatMap (fun c => utf8EncodeChar c.toNat) = _
  induction salt with
  | nil => rfl
  | cons b rest ih =>
    have hb : b < 256 := h b (by simp)
    rw [List.map_cons, List.flatMap_cons, List.flatMap_cons,
      char_toNat_ofNat b (by omega), ih (fun x hx => h x (by simp [hx]))]

theorem utf8EncodeChar_length_one (b : Nat) (h : b < 0x80) :
    (utf8EncodeChar b).length = 1 := by
  rw [utf8EncodeChar, if_pos h]
  rfl

theorem utf8EncodeChar_length_two (b : Nat) (h1 : 0x80 ≤ b) (h2 : b < 0x800) :
    (utf8EncodeChar b).length = 2 := by
  rw [utf8EncodeChar, if_neg (by omega), if_pos h2]
  rfl

theorem utf8EncodeChar_length_pos (n : Nat) : 1 ≤ (utf8EncodeChar n).length := by
  unfold utf8EncodeChar
  split
  · simp
  · split
    · simp
    · split <;> simp

theorem flatMap_utf8_length_le (l : List Nat) :
    l.length ≤ (l.flatMap utf8EncodeChar).length := by
  induction l with
  | nil => simp
  | cons b rest ih =>
    rw [List.flatMap_cons, List.length_cons, List.length_append]
    have := utf8EncodeChar_length_pos b
    omega

/-- If some byte is at least `0x80`, the UTF-8 encoding of the code-point
string is strictly longer than the byte list itself. -/
theorem flatMap_utf8_length_lt (l : List Nat) (h : ∀ b ∈ l, b < 256)
    (hx : ∃ b ∈ l, 0x80 ≤ b) :
    l.length < (l.flatMap utf8EncodeChar).length := by
  induction l with
  | nil => simp at hx
  | cons b rest ih =>
    have hb : b < 256 := h b (by simp)
    rw [List.flatMap_cons, List.length_cons, List.length_append]
    by_cases hhi : 0x80 ≤ b
    · rw [utf8EncodeChar_length_two b hhi (by omega)]
      have := flatMap_utf8_length_le rest
      omega
    · rcases hx with ⟨x, hxmem, hxhi⟩
      rcases List.mem_cons.mp hxmem with rfl | hxrest
      · omega
      · have := ih (fun y hy => h y (by simp [hy])) ⟨x, hxrest, hxhi⟩
        have := utf8EncodeChar_length_pos b
        omega

/-! ### Joined hex strings -/

theorem foldl_append_length (l : List String) (acc : String) :
    (l.foldl (fun r s => r ++ s) acc).length = acc.length + (l.map String.length).sum := by
  induction l generalizing acc with
  | nil => simp [List.foldl]
  | cons s rest ih =>
    simp only [List.foldl, List.map_cons, List.sum_cons]
    rw [ih, String.length_append]
    omega

theorem foldl_append_data (l : List String) (acc : String) :
    (l.foldl (fun r s => r ++ s) acc).data = acc.data ++ l.flatMap String.data := by
  induction l generalizing acc with
  | nil => simp [List.foldl]
  | cons s rest ih =>
    simp only [List.foldl, List.flatMap_cons]
    rw [ih, String.data_append, List.append_assoc]

/-- A joined hex rendering of `n` bytes has `2 * n` characters. -/
theorem hexOfBytes_length (bs : List Nat) (h : ∀ b ∈ bs, b < 256) :
    (hexOfBytes bs).length = 2 * bs.length := by
  rw [hexOfBytes, String.join, foldl_append_length]
  simp only [String.length, List.length_nil, Nat.zero_add, List.map_map]
  have : ∀ b ∈ bs, (String.length ∘ hexByte) b = 2 := fun b hb => hexByte_length b (h b hb)
  rw [List.map_congr_left this, List.map_const']
  simp [List.sum_replicate, Nat.mul_comm]

/-- Every character of a joined hex rendering is a lowercase hex digit. -/
theorem hexOfBytes_digits (bs : List Nat) (h : ∀ b ∈ bs, b < 256) :
    ∀ c ∈ (hexOfBytes bs).data, c ∈ hexDigits := by
  intro c hc
  rw [hexOfBytes, String.join, foldl_append_data] at hc
  simp only [List.nil_append, List.mem_flatMap, List.mem_map] at hc
  rcases hc with ⟨cs, ⟨b, hb, hcs⟩, hcmem⟩
  subst hcs
  exact hexByte_digits b (h b hb) c hcmem

/-! ### Session state machine (`AuthContext.tsx`)

`AuthProvider` keeps `userId`, `masterKey` and `lastActivity` in state.
Activity listeners set `lastActivity := Date.now()`; a 1-second interval,
active only while authenticated, calls `logout()` when
`Date.now() - lastActivity > 30000`. `login` sets both ids and stamps
activity; `logout` clears both ids. Time is in milliseconds. -/

structure AuthState where
  userId : Option String
  masterKey : Option String
  lastActivity : Nat
  deriving DecidableEq, Repr

/-- JavaScript truthiness of a nullable string (`!!x`): `null` and the
empty string are falsy. -/
def jsTruthy : Option String → Bool
  | none => false
  | some s => !(s == "")

/-- `isAuthenticated = !!userId && !!masterKey`. -/
def isAuthenticated (s : AuthState) : Bool :=
  jsTruthy s.userId && jsTruthy s.masterKey

/-- The events the provider reacts to: `login(key, id)`, a user-activity
event, and one firing of the 1-second interval, each stamped with the
current `Date.now()`. -/
inductive AuthEvent where
  | login (key id : String) (now : Nat)
  | activity (now : Nat)
  | tick (now : Nat)

/-- One step of the provider's state. The interval body runs only while
authenticated (the effect is registered under `if (!isAuthenticated) return`),
and logs out when more than 30000 ms have passed since the last activity. -/
def authStep (s : AuthState) : AuthEvent → AuthState
  | .login key id now => { userId := some id, masterKey := some key, lastActivity := now }
  | .activity now => { s with lastActivity := now }
  | .tick now =>
    if isAuthenticated s ∧ now - s.lastActivity > 30000 then
      { s with userId := none, masterKey := none }
    else s

/-- Run the provider over a sequence of events. -/
def authRun (s : AuthState) (evs : List AuthEvent) : AuthState :=
  evs.foldl authStep s

theorem authStep_tick_keeps (s : AuthState) (t : Nat) (h : t ≤ s.lastActivity + 30000) :
    authStep s (.tick t) = s := by
  rw [authStep, if_neg]
  rintro ⟨-, hgt⟩
  omega

theorem authRun_ticks_keeps (times : List Nat) (s : AuthState)
    (h : ∀ t ∈ times, t ≤ s.lastActivity + 30000) :
    authRun s (times.map .tick) = s := by
  induction times with
  | nil => rfl
  | cons t rest ih =>
    rw [List.map_cons, authRun, List.foldl_cons,
      authStep_tick_keeps s t (h t (by simp))]
    exact ih fun t' ht' => h t' (by simp [ht'])

theorem authStep_tick_logout (s : AuthState) (t : Nat) (hauth : isAuthenticated s = true)
    (h : t > s.lastActivity + 30000) :
    authStep s (.tick t) = { s with userId := none, masterKey := none } := by
  rw [authStep, if_pos]
  exact ⟨by simp [hauth], by omega⟩

/-! ### Vault loading (`Dashboard.tsx` `loadData`) -/

/-- One stored password row, fields as persisted (encrypted). -/
structure PasswordRow where
  id : String
  category_id : Option String
  title : String
  username : String
  password : String
  url : Option String
  notes : Option String
  deriving DecidableEq, Repr

/-- One decrypted password row. -/
structure DecryptedPasswordRow where
  id : String
  category_id : Option String
  title : String
  username : String
  password : String
  url : Option String
  notes : Option String
  deriving DecidableEq, Repr

/-- `pwd.url ? await decryptData(pwd.url, masterKey) : undefined` — optional
fields are decrypted only when present; a decryption failure propagates. -/
def decOptField (H : HostCrypto) (mk : String) : Option String → Option (Option String)
  | none => some none
  | some e => ((decryptData H e mk).toOption).map some

/-- The `try { ...await decryptData... } catch { return null }` body mapped
over one row. -/
def decryptRow (H : HostCrypto) (mk : String) (row : PasswordRow) :
    Option DecryptedPasswordRow := do
  let t ← (decryptData H row.title mk).toOption
  let u ← (decryptData H row.username mk).toOption
  let p ← (decryptData H row.password mk).toOption
  let url ← decOptField H mk row.url
  let notes ← decOptField H mk row.notes
  pure { id := row.id, category_id := row.category_id, title := t, username := u,
         password := p, url := url, notes := notes }

/-- `loadData`: decrypt every row, a failed row becomes `null`, then
`decrypted.filter(p => p !== null)`. -/
def loadData (H : HostCrypto) (mk : String) (rows : List PasswordRow) :
    List DecryptedPasswordRow :=
  (rows.map (decryptRow H mk)).filterMap id

/-! ### Login verification (`AuthContext.tsx` `verifyMasterKey`) -/

/-- One row of the `users` table as read by the fallback query. -/
structure UserRow where
  id : String
  master_key_hash : String
  deriving DecidableEq, Repr

/-- `maybeSingle()` on the rows matching the query: no row gives `null`,
one row gives the row, more than one row is a query error. -/
def maybeSingle (rows : List UserRow) : Except Unit (Option UserRow) :=
  match rows with
  | [] => .ok none
  | [r] => .ok (some r)
  | _ => .error ()

/-- The `{ success, userId? }` result of `verifyMasterKey`. -/
structure VerifyResult where
  success : Bool
  userId : Option String
  deriving DecidableEq, Repr

/-- `verifyMasterKey(key)`: try the primary path
(`supabase.auth.signInWithPassword`, modelled as the abstract `signIn`,
returning the possibly-absent `authData.user?.id` on success and `none` on
an auth error); on failure fall back to hashing the candidate and querying
`users` by `master_key_hash` with `maybeSingle`. -/
def verifyMasterKey (H : HostCrypto) (signIn : String → Option (Option String))
    (store : List UserRow) (key : String) : VerifyResult :=
  match signIn key with
  | some uid => { success := true, userId := uid }
  | none =>
    let keyHash := hashMasterKey H key
    match maybeSingle (store.filter (fun u => u.master_key_hash == keyHash)) with
    | .error _ => { success := false, userId := none }
    | .ok none => { success := false, userId := none }
    | .ok (some u) => { success := true, userId := some u.id }

/-! ## Claims -/

/-- Claim C1: For every string `s` and master key `k`, decrypting the envelope
produced by `encryptData s k` with the same key `k` returns a string equal
byte-for-byte to `s` (in particular for `s = ""`, an instance of the
universally quantified `s`). AES-GCM is a host primitive; the hypothesis
`hcorrect` is its decryption-correctness property at the relevant key,
nonce and plaintext, and the length/byte-range hypotheses state what
`crypto.getRandomValues(new Uint8Array(16/12))` and the `Uint8Array`
ciphertext guarantee in the source. -/
theorem encrypt_decrypt_roundtrip (H : HostCrypto) (s k : String) (salt iv : List Nat)
    (hs : salt.length = 16) (hi : iv.length = 12)
    (hsb : ∀ b ∈ salt, b < 256) (hib : ∀ b ∈ iv, b < 256)
    (heb : ∀ b ∈ H.aesGcmEnc (deriveKey H k (saltToString salt)) iv (utf8Bytes s), b < 256)
    (hcorrect : H.aesGcmDec (deriveKey H k (saltToString salt)) iv
      (H.aesGcmEnc (deriveKey H k (saltToString salt)) iv (utf8Bytes s)) =
        some (utf8Bytes s)) :
    decryptData H (encryptData H s k salt iv) k = .ok s := by
  rw [decryptData_encryptData H s k k salt iv hs hi hsb hib heb, hcorrect]
  show Except.ok (utf8Decode (utf8Bytes s)) = Except.ok s
  rw [utf8Decode_utf8Bytes]

theorem encrypt_decrypt_roundtrip_witness :
    decryptData toyHost (encryptData toyHost ("") ("key") (List.replicate 16 0)
      (List.replicate 12 0)) ("key") = .ok ("") :=
  encrypt_decrypt_roundtrip toyHost ("") ("key") (List.replicate 16 0) (List.replicate 12 0)
    (by decide) (by decide) (by decide) (by decide) (by decide) (by decide)

/-- Claim C2: The output of `encryptData` is the base64 encoding of
`salt || nonce || ciphertext+tag` with the salt exactly the 16 random bytes
and the nonce exactly the 12 random bytes the source creates; and
`decryptData` parses its input by base64-decoding and splitting the bytes
into the first 16 (salt), the next 12 (nonce) and the remainder
(ciphertext+tag), handing exactly those to authenticated decryption. -/
theorem envelope_wire_format (H : HostCrypto) (s k : String) (salt iv rest : List Nat)
    (hs : salt.length = 16) (hi : iv.length = 12)
    (hsb : ∀ b ∈ salt, b < 256) (hib : ∀ b ∈ iv, b < 256)
    (heb : ∀ b ∈ H.aesGcmEnc (deriveKey H k (saltToString salt)) iv (utf8Bytes s), b < 256)
    (hrb : ∀ b ∈ rest, b < 256) :
    (encryptData H s k salt iv =
       btoa (salt ++ iv ++ H.aesGcmEnc (deriveKey H k (saltToString salt)) iv (utf8Bytes s)) ∧
     atob (encryptData H s k salt iv) =
       some (salt ++ iv ++ H.aesGcmEnc (deriveKey H k (saltToString salt)) iv (utf8Bytes s))) ∧
    decryptData H (btoa (salt ++ iv ++ rest)) k =
      match H.aesGcmDec (deriveKey H k (saltToString salt)) iv rest with
      | none => Except.error CryptoError.integrityError
      | some pt => Except.ok (utf8Decode pt) := by
  refine ⟨⟨rfl, ?_⟩, decryptData_parse H k salt iv rest hs hi hsb hib hrb⟩
  rw [encryptData]
  apply atob_btoa
  intro b hb
  rcases List.mem_append.mp hb with h | h
  · rcases List.mem_append.mp h with h | h
    · exact hsb b h
    · exact hib b h
  · exact heb b h

theorem envelope_wire_format_witness :
    decryptData toyHost (btoa (List.replicate 16 0 ++ List.replicate 12 0 ++ [1, 2, 3])) ("k") =
      Except.error CryptoError.integrityError :=
  ((envelope_wire_format toyHost ("x") ("k") (List.replicate 16 0) (List.replicate 12 0)
    [1, 2, 3] (by decide) (by decide) (by decide) (by decide) (by decide) (by decide)).2).trans
    (by rfl)

/-- Claim C10: The base64-decoded output of `encryptData` has byte length exactly
`44 + |utf8(s)|`: 16 salt bytes, 12 nonce bytes, and a ciphertext of the
plaintext's length plus a 16-byte GCM tag (the hypothesis `hctlen` is the
AES-GCM length equation for the host primitive); in particular every such
envelope decodes to at least 44 bytes, and `s = ""` gives exactly 44. -/
theorem envelope_decoded_length (H : HostCrypto) (s k : String) (salt iv : List Nat)
    (hs : salt.length = 16) (hi : iv.length = 12)
    (hsb : ∀ b ∈ salt, b < 256) (hib : ∀ b ∈ iv, b < 256)
    (heb : ∀ b ∈ H.aesGcmEnc (deriveKey H k (saltToString salt)) iv (utf8Bytes s), b < 256)
    (hctlen : (H.aesGcmEnc (deriveKey H k (saltToString salt)) iv (utf8Bytes s)).length =
      (utf8Bytes s).length + 16) :
    ∃ combined, atob (encryptData H s k salt iv) = some combined ∧
      combined.length = 44 + (utf8Bytes s).length ∧ 44 ≤ combined.length := by
  have hlen : (salt ++ iv ++ H.aesGcmEnc (deriveKey H k (saltToString salt)) iv
      (utf8Bytes s)).length = 44 + (utf8Bytes s).length := by
    rw [List.length_append, List.length_append, hs, hi, hctlen]
    omega
  refine ⟨_, ?_, hlen, by omega⟩
  rw [encryptData]
  apply atob_btoa
  intro b hb
  rcases List.mem_append.mp hb with h | h
  · rcases List.mem_append.mp h with h | h
    · exact hsb b h
    · exact hib b h
  · exact heb b h

theorem envelope_decoded_length_witness :
    ∃ combined,
      atob (encryptData toyHost ("") ("k") (List.replicate 16 0) (List.replicate 12 0)) =
        some combined ∧ combined.length = 44 := by
  obtain ⟨c, h1, h2, -⟩ := envelope_decoded_length toyHost ("") ("k") (List.replicate 16 0)
    (List.replicate 12 0) (by decide) (by decide) (by decide) (by decide) (by decide) (by decide)
  refine ⟨c, h1, ?_⟩
  rw [h2]
  decide

/-- Claim C3: Decrypting `encryptData s k1` with any `k2 ≠ k1` fails with the
authenticated-decryption failure (`IntegrityError`) rather than returning
plaintext. PBKDF2 and AES-GCM are host primitives; `hpbkdf` is the spec's
"different keys for different master keys" property of PBKDF2 at the salt in
question and `hauth` is ideal AES-GCM authenticity (a wrong key never passes
the tag check) at the nonce in question. -/
theorem wrong_key_integrity_error (H : HostCrypto) (s k1 k2 : String) (salt iv : List Nat)
    (hneq : k1 ≠ k2)
    (hs : salt.length = 16) (hi : iv.length = 12)
    (hsb : ∀ b ∈ salt, b < 256) (hib : ∀ b ∈ iv, b < 256)
    (heb : ∀ b ∈ H.aesGcmEnc (deriveKey H k1 (saltToString salt)) iv (utf8Bytes s), b < 256)
    (hpbkdf : ∀ pw pw' : List Nat, pw ≠ pw' →
      H.pbkdf2Sha256 pw (utf8Bytes (saltToString salt)) 100000 ≠
        H.pbkdf2Sha256 pw' (utf8Bytes (saltToString salt)) 100000)
    (hauth : ∀ key key' pt : List Nat, key' ≠ key →
      H.aesGcmDec key' iv (H.aesGcmEnc key iv pt) = none) :
    decryptData H (encryptData H s k1 salt iv) k2 = .error .integrityError := by
  rw [decryptData_encryptData H s k1 k2 salt iv hs hi hsb hib heb]
  have hkeys : deriveKey H k2 (saltToString salt) ≠ deriveKey H k1 (saltToString salt) := by
    unfold deriveKey
    exact hpbkdf (utf8Bytes k2) (utf8Bytes k1)
      (fun hutf => hneq (utf8Bytes_injective hutf).symm)
  rw [hauth _ _ _ hkeys]

theorem wrong_key_integrity_error_witness :
    decryptData toyAuthHost (encryptData toyAuthHost ("x") ("a") (List.replicate 16 0)
      (List.replicate 12 0)) ("b") = .error .integrityError :=
  wrong_key_integrity_error toyAuthHost ("x") ("a") ("b") (List.replicate 16 0)
    (List.replicate 12 0) (by decide) (by decide) (by decide) (by decide) (by decide)
    (by decide)
    (fun pw pw' h => toyAuthHost_pbkdf2_inj pw pw' _ _ h)
    (fun key key' pt h => toyAuthHost_auth key key' _ pt h)

/-- Claim C4: `hashMasterKey k` is by definition the hex rendering of the SHA-256
digest of the UTF-8 bytes of `k` (first conjunct, definitional in the
embedding — determinism is immediate since it is a pure function of `k`,
restated as the last conjunct); given that the host digest has 32 bytes
below 256, the result is a 64-character string of lowercase hex digits. -/
theorem hashMasterKey_hex_sha256 (H : HostCrypto) (k : String)
    (hlen : (H.sha256 (utf8Bytes k)).length = 32)
    (hbytes : ∀ b ∈ H.sha256 (utf8Bytes k), b < 256) :
    hashMasterKey H k = hexOfBytes (H.sha256 (utf8Bytes k)) ∧
    (hashMasterKey H k).length = 64 ∧
    (∀ c ∈ (hashMasterKey H k).data, c ∈ hexDigits) ∧
    (∀ k' : String, k' = k → hashMasterKey H k' = hashMasterKey H k) := by
  refine ⟨rfl, ?_, ?_, fun k' h => by rw [h]⟩
  · rw [hashMasterKey, hexOfBytes_length _ hbytes, hlen]
  · exact fun c hc => hexOfBytes_digits _ hbytes c hc

theorem hashMasterKey_hex_sha256_witness :
    (hashMasterKey toyHost ("k")).length = 64 :=
  (hashMasterKey_hex_sha256 toyHost ("k") (by decide) (by decide)).2.1

/-- Claim C5 counterexample: the claim says every wrong-length envelope fails with
a `ValidationError` before decryption is attempted. In the source,
`decryptData` performs no length validation at all: the four-character
base64 string `"AAAA"` decodes to only 3 bytes, yet the bytes are sliced
and authenticated decryption is run (and fails), producing the same
`IntegrityError` as a tag mismatch — not a distinct pre-decryption
validation error (`invalidBase64`, the only error raised before
decryption, does not occur). -/
theorem no_validation_before_decrypt_cex :
    decryptData toyHost ("AAAA") ("k") = .error .integrityError ∧
    decryptData toyHost ("AAAA") ("k") ≠ .error .invalidBase64 ∧
    CryptoError.integrityError ≠ CryptoError.invalidBase64 := by
  refine ⟨by rfl, ?_, by decide⟩
  intro h
  rw [show decryptData toyHost ("AAAA") ("k") = .error .integrityError from rfl] at h
  exact absurd (Except.error.inj h) (by decide)

/-- Claim C5 (amended): only invalid base64 is rejected before decryption — `atob`
throws, no key derivation or decryption happens, and the result does not
depend on the host primitives or the key; a wrong-length envelope that is
valid base64 is never rejected by a pre-decryption validation error:
`decryptData` slices whatever bytes it got and proceeds to authenticated
decryption, so any failure on such input is the `IntegrityError` of the
decryption stage. -/
theorem malformed_envelope_behavior (H H' : HostCrypto) (k k' env : String)
    (hbad : atob env = none) :
    decryptData H env k = .error .invalidBase64 ∧
    decryptData H env k = decryptData H' env k' ∧
    (∀ env' combined k'', atob env' = some combined →
      decryptData H env' k'' ≠ .error .invalidBase64) := by
  refine ⟨?_, ?_, ?_⟩
  · rw [decryptData, hbad]
  · rw [decryptData, hbad, decryptData, hbad]
  · intro env' combined k'' hsome
    rw [decryptData, hsome]
    dsimp only
    split
    · intro h
      exact absurd (Except.error.inj h) (by decide)
    · intro h
      exact Except.noConfusion h

theorem malformed_envelope_behavior_witness :
    decryptData toyHost ("!!!!") ("k") = .error .invalidBase64 :=
  (malformed_envelope_behavior toyHost toyAuthHost ("k") ("k2") ("!!!!") (by decide)).1

/-- Claim C9: In both `encryptData` and `decryptData` the salt handed to PBKDF2
is the UTF-8 encoding of the string built from the code points of the 16
salt bytes (`saltToString`), not the raw bytes: the first conjunct is the
encrypt-side key derivation, the second shows `decryptData` applies the
identical transformation to the same 16 stored bytes (so the round trip is
preserved); and whenever some salt byte is at least `0x80`, that effective
PBKDF2 salt is strictly longer than — in particular different from — the
16 raw stored bytes. -/
theorem pbkdf2_salt_string_quirk (H : HostCrypto) (k : String) (salt iv rest : List Nat)
    (hs : salt.length = 16) (hi : iv.length = 12)
    (hsb : ∀ b ∈ salt, b < 256) (hib : ∀ b ∈ iv, b < 256) (hrb : ∀ b ∈ rest, b < 256)
    (hhigh : ∃ b ∈ salt, 0x80 ≤ b) :
    (deriveKey H k (saltToString salt) =
      H.pbkdf2Sha256 (utf8Bytes k) (utf8Bytes (saltToString salt)) 100000) ∧
    (decryptData H (btoa (salt ++ iv ++ rest)) k =
      match H.aesGcmDec (deriveKey H k (saltToString salt)) iv rest with
      | none => Except.error CryptoError.integrityError
      | some pt => Except.ok (utf8Decode pt)) ∧
    salt.length < (utf8Bytes (saltToString salt)).length ∧
    utf8Bytes (saltToString salt) ≠ salt := by
  have hlt : salt.length < (utf8Bytes (saltToString salt)).length := by
    rw [utf8Bytes_saltToString salt hsb]
    exact flatMap_utf8_length_lt salt hsb hhigh
  refine ⟨rfl, decryptData_parse H k salt iv rest hs hi hsb hib hrb, hlt, ?_⟩
  intro heq
  rw [heq] at hlt
  omega

theorem pbkdf2_salt_string_quirk_witness :
    utf8Bytes (saltToString (128 :: List.replicate 15 0)) ≠ 128 :: List.replicate 15 0 :=
  (pbkdf2_salt_string_quirk toyHost ("k") (128 :: List.replicate 15 0) (List.replicate 12 0)
    [0] (by decide) (by decide) (by decide) (by decide) (by decide)
    ⟨128, by decide, by decide⟩).2.2.2

theorem verifyMasterKey_fallback_eq (H : HostCrypto) (signIn : String → Option (Option String))
    (store : List UserRow) (key : String) (hfail : signIn key = none) :
    verifyMasterKey H signIn store key =
      match maybeSingle (store.filter (fun u => u.master_key_hash == hashMasterKey H key)) with
      | .error _ => ⟨false, none⟩
      | .ok none => ⟨false, none⟩
      | .ok (some u) => ⟨true, some u.id⟩ := by
  rw [verifyMasterKey, hfail]

/-- Claim C6: `verifyMasterKey` tries the primary path (the external identity
provider `signIn`) first: when it succeeds the result is success with its
user id, for every store (no hash comparison involved). Only when it fails
is `hashMasterKey key` compared with the stored hashes, and — as long as at
most one stored row carries that hash, as when each account's hash is
unique — the fallback succeeds exactly when some stored row's
`master_key_hash` equals `hashMasterKey key`; any non-success is the value
`{ success := false }`, not a thrown exception. -/
theorem verifyMasterKey_fallback_spec (H : HostCrypto)
    (signIn : String → Option (Option String)) (store : List UserRow) (key : String) :
    (∀ uid, signIn key = some uid →
      verifyMasterKey H signIn store key = ⟨true, uid⟩) ∧
    (signIn key = none →
      ((store.filter (fun u => u.master_key_hash == hashMasterKey H key)).length ≤ 1 →
        ((verifyMasterKey H signIn store key).success = true ↔
          ∃ u ∈ store, u.master_key_hash = hashMasterKey H key)) ∧
      ((verifyMasterKey H signIn store key).success = false →
        verifyMasterKey H signIn store key = ⟨false, none⟩)) := by
  constructor
  · intro uid h
    rw [verifyMasterKey, h]
  · intro hfail
    rw [verifyMasterKey_fallback_eq H signIn store key hfail]
    rcases hfilter : store.filter (fun u => u.master_key_hash == hashMasterKey H key)
      with - | ⟨r, - | ⟨r2, rest⟩⟩
    · rw [hfilter]
      refine ⟨fun _ => ⟨fun h => by simp [maybeSingle] at h, ?_⟩, fun _ => by rfl⟩
      rintro ⟨u, hu, hhash⟩
      have hmem : u ∈ store.filter (fun u => u.master_key_hash == hashMasterKey H key) :=
        List.mem_filter.mpr ⟨hu, by simp [hhash]⟩
      rw [hfilter] at hmem
      simp at hmem
    · have hr : r ∈ store.filter (fun u => u.master_key_hash == hashMasterKey H key) := by
        rw [hfilter]; simp
      have hr' := List.mem_filter.mp hr
      rw [hfilter]
      refine ⟨fun _ => ⟨fun _ => ⟨r, hr'.1, by simpa using hr'.2⟩, fun _ => rfl⟩, ?_⟩
      intro h
      simp [maybeSingle] at h
    · rw [hfilter]
      refine ⟨fun hlen => absurd hlen (by simp), fun _ => by rfl⟩

theorem verifyMasterKey_fallback_spec_witness :
    (verifyMasterKey toyHost (fun _ => none)
      [⟨"u1", hashMasterKey toyHost ("pw")⟩] ("pw")).success = true :=
  (((verifyMasterKey_fallback_spec toyHost (fun _ => none)
      [⟨"u1", hashMasterKey toyHost ("pw")⟩] ("pw")).2 rfl).1 (by decide)).mpr
    ⟨⟨"u1", hashMasterKey toyHost ("pw")⟩, by decide, rfl⟩

/-- Claim C7: From a fresh login at time `t0` (with non-empty key and id, the
truthiness the source checks), a 1-second interval tick sequence with no
activity events logs the session out strictly after the 30000 ms threshold:
after the tick at `t0 + 31000` the state is unauthenticated and the
in-memory master key is `null`; whereas an activity event at `t0 + 29000`
resets the inactivity clock, so the same per-second ticks leave the session
authenticated through `t0 + 59000`, well past the original 30-second mark. -/
theorem session_timeout_behavior (key id : String) (t0 : Nat)
    (hk : key ≠ "") (hid : id ≠ "") :
    ((authRun ⟨none, none, 0⟩ (.login key id t0 ::
        (List.range 31).map (fun j => .tick (t0 + 1000 * (j + 1))))).masterKey = none ∧
     isAuthenticated (authRun ⟨none, none, 0⟩ (.login key id t0 ::
        (List.range 31).map (fun j => .tick (t0 + 1000 * (j + 1))))) = false) ∧
    isAuthenticated (authRun ⟨none, none, 0⟩ (.login key id t0 ::
        ((List.range 29).map (fun j => .tick (t0 + 1000 * (j + 1))) ++
          (.activity (t0 + 29000) ::
            (List.range 30).map (fun j => .tick (t0 + 29000 + 1000 * (j + 1))))))) = true := by
  have hs1 : authStep ⟨none, none, 0⟩ (.login key id t0) =
      ⟨some id, some key, t0⟩ := rfl
  have hauth1 : isAuthenticated ⟨some id, some key, t0⟩ = true := by
    simp [isAuthenticated, jsTruthy, hk, hid]
  have hticks : ∀ n : Nat, n ≤ 30 → ∀ base : Nat,
      authRun ⟨some id, some key, base⟩
        ((List.range n).map (fun j => AuthEvent.tick (base + 1000 * (j + 1)))) =
      ⟨some id, some key, base⟩ := by
    intro n hn base
    have : (List.range n).map (fun j => AuthEvent.tick (base + 1000 * (j + 1))) =
        ((List.range n).map (fun j => base + 1000 * (j + 1))).map AuthEvent.tick := by
      rw [List.map_map]
      rfl
    rw [this]
    apply authRun_ticks_keeps
    intro t ht
    simp only [List.mem_map, List.mem_range] at ht
    rcases ht with ⟨j, hj, rfl⟩
    show base + 1000 * (j + 1) ≤ base + 30000
    omega
  constructor
  · have hsplit : List.range 31 = List.range 30 ++ [30] := by
      rw [show (31 : Nat) = Nat.succ 30 from rfl, List.range_succ]
    rw [authRun, List.foldl_cons, hs1, ← authRun]
    rw [hsplit, List.map_append]
    rw [authRun, List.foldl_append, ← authRun, ← authRun]
    rw [hticks 30 (by omega) t0]
    rw [List.map_singleton, authRun, List.foldl_cons, List.foldl_nil]
    rw [authStep_tick_logout _ _ hauth1 (by show t0 + 1000 * 31 > t0 + 30000; omega)]
    exact ⟨rfl, by simp [isAuthenticated, jsTruthy]⟩
  · rw [authRun, List.foldl_cons, hs1, List.foldl_append, ← authRun, ← authRun]
    rw [hticks 29 (by omega) t0]
    rw [authRun, List.foldl_cons, ← authRun]
    rw [show authStep ⟨some id, some key, t0⟩ (.activity (t0 + 29000)) =
      ⟨some id, some key, t0 + 29000⟩ from rfl]
    rw [hticks 30 (by omega) (t0 + 29000)]
    exact hauth1

theorem session_timeout_behavior_witness :
    (authRun ⟨none, none, 0⟩ (.login ("k") ("u") 0 ::
        (List.range 31).map (fun j => .tick (0 + 1000 * (j + 1))))).masterKey = none :=
  (session_timeout_behavior ("k") ("u") 0 (by decide) (by decide)).1.1

/-- Claim C8: When loading the vault, one row whose decryption fails is dropped
from the result and only that row: the rows before and after it contribute
exactly their successfully decrypted records, and the load is not aborted.
The second conjunct states that every row that decrypts successfully is in
the returned list. -/
theorem loadData_partial_failure (H : HostCrypto) (mk : String)
    (rows1 rows2 : List PasswordRow) (r : PasswordRow)
    (hfail : decryptRow H mk r = none) :
    loadData H mk (rows1 ++ r :: rows2) = loadData H mk rows1 ++ loadData H mk rows2 ∧
    (∀ r' d, r' ∈ rows1 ++ r :: rows2 → decryptRow H mk r' = some d →
      d ∈ loadData H mk (rows1 ++ r :: rows2)) := by
  constructor
  · simp [loadData, List.map_append, List.filterMap_append, hfail]
  · intro r' d hmem hdec
    simp only [loadData, List.mem_filterMap, List.mem_map, id]
    exact ⟨some d, ⟨r', hmem, hdec⟩, rfl⟩

theorem loadData_partial_failure_witness :
    loadData toyHost ("mk")
      [⟨"1", none, encryptData toyHost ("t") ("mk") (List.replicate 16 0) (List.replicate 12 0),
         encryptData toyHost ("u") ("mk") (List.replicate 16 0) (List.replicate 12 0),
         encryptData toyHost ("p") ("mk") (List.replicate 16 0) (List.replicate 12 0),
         none, none⟩,
       ⟨"2", none, ("!!!!"), ("!!!!"), ("!!!!"), none, none⟩] =
      loadData toyHost ("mk")
        [⟨"1", none, encryptData toyHost ("t") ("mk") (List.replicate 16 0)
            (List.replicate 12 0),
          encryptData toyHost ("u") ("mk") (List.replicate 16 0) (List.replicate 12 0),
          encryptData toyHost ("p") ("mk") (List.replicate 16 0) (List.replicate 12 0),
          none, none⟩] ++ loadData toyHost ("mk") [] :=
  (loadData_partial_failure toyHost ("mk")
    [⟨"1", none, encryptData toyHost ("t") ("mk") (List.replicate 16 0) (List.replicate 12 0),
      encryptData toyHost ("u") ("mk") (List.replicate 16 0) (List.replicate 12 0),
      encryptData toyHost ("p") ("mk") (List.replicate 16 0) (List.replicate 12 0),
      none, none⟩] []
    ⟨"2", none, ("!!!!"), ("!!!!"), ("!!!!"), none, none⟩ (by decide)).1

end SecureVault
